import Mathlib

/-!
Verification development for the `formdata` crate: a streaming
`multipart/form-data` parser built from a buffered token scanner
(`src/buf.rs`, `stream_until_token`) and a parsing state machine
(`src/lib.rs`, `run_state_machine`).

Bytes are modelled as `Nat`; a buffered byte source (`std::io::BufRead` /
`BufReader`) is modelled as a list of chunks, where each chunk is what one
`fill_buf` refill of the internal buffer returns, and `consume n` advances
inside the current chunk.  External collaborators of the crate (the
`httparse` header-block parser, the `hyper` typed header accessors, the
`mime` content-type parser, UTF-8 decoding and temp-file storage) are
modelled from the specification; everything else is translated directly
from the Rust source.
-/

set_option maxRecDepth 10000

namespace Formdata

/-! ## Byte source model (`std::io::BufRead` over chunked input) -/

/-- A buffered byte source: the list of byte chunks still to be served.
The head chunk is the current contents of the `BufReader` buffer. -/
abbrev Source := List (List Nat)

/-- Model of `BufRead::fill_buf`: return the current buffer without
consuming; an exhausted source yields the empty buffer. -/
def fillBuf : Source → List Nat
  | [] => []
  | c :: _ => c

/-- Model of `BufRead::consume n`: drop `n` bytes from the current buffer,
moving to the next chunk when the buffer is used up. -/
def consume (n : Nat) : Source → Source
  | [] => []
  | c :: rest =>
    let c' := c.drop n
    if c' = [] then rest else c' :: rest

/-- Total number of bytes a source can still serve. -/
def totalLen (src : Source) : Nat := (src.map List.length).sum

/-- The full byte stream a source serves (all chunks concatenated). -/
def flattenSrc (src : Source) : List Nat := src.flatten

/-! ## The token scanner (`src/buf.rs`, `stream_until_token`) -/

/-- Index of the first occurrence of `token` fully inside `buffer`
(`buffer.windows(token.len()).position(|t| t == token)` in the source). -/
def firstTokenIndex (token : List Nat) : List Nat → Option Nat
  | [] => if token = [] then some 0 else none
  | b :: rest =>
    if token.length ≤ (b :: rest).length ∧ token.isPrefixOf (b :: rest) then some 0
    else (firstTokenIndex token rest).map (· + 1)

/-- The suffix-candidate scan at the end of a chunk (`src/buf.rs` lines
121-128): all lengths `w ≤ n` such that the last `w` bytes of `buffer`
equal `token[..w]`, collected in decreasing order of `w`. -/
def suffixCandidates (token buffer : List Nat) : Nat → List Nat
  | 0 => []
  | w + 1 =>
    (if token.take (w + 1) = buffer.drop (buffer.length - (w + 1)) then [w + 1] else [])
      ++ suffixCandidates token buffer w

/-- The loop over the incoming candidate prefix lengths (`src/buf.rs`
lines 70-86).  `inl (exts, partmatch)` means no candidate resolved into a
full match: `exts` are the extended candidates and `partmatch` records
whether any extension happened.  `inr (outBytes, used)` means a candidate
resolved: the token was found straddling the buffer start. -/
def scanPrefixes (token buffer : List Nat) (largest : Nat) :
    List Nat → (List Nat × Bool) ⊕ (List Nat × Nat)
  | [] => Sum.inl ([], false)
  | l :: rest =>
    if buffer.length < token.length - l then
      if buffer = (token.drop l).take buffer.length then
        match scanPrefixes token buffer largest rest with
        | Sum.inl (exts, _) => Sum.inl ((l + buffer.length) :: exts, true)
        | Sum.inr r => Sum.inr r
      else scanPrefixes token buffer largest rest
    else
      if buffer.take (token.length - l) = token.drop l then
        Sum.inr (token.take (largest - l), token.length - l)
      else scanPrefixes token buffer largest rest

/-- Result of processing one buffer refill inside `stream_until_token`:
the bytes written to the sink this round, whether the token was found, how
many buffer bytes were marked consumed, and the candidate prefix lengths
carried to the next round. -/
structure ChunkResult where
  out : List Nat
  found : Bool
  used : Nat
  prefixes : List Nat
  deriving Repr, DecidableEq

/-- Phases 2 and 3 of a round (`src/buf.rs` lines 95-131): search the
buffer for a complete occurrence, otherwise record suffix candidates and
flush everything except the reserved longest candidate. -/
def searchAndReserve (token buffer : List Nat) (exts : List Nat) (flush : List Nat) :
    ChunkResult :=
  match firstTokenIndex token buffer with
  | some idx => ⟨flush ++ buffer.take idx, true, idx + token.length, exts⟩
  | none =>
    let window := min (token.length - 1) buffer.length
    let cands := suffixCandidates token buffer window
    let reserve := if exts = [] then cands.headD 0 else buffer.length
    ⟨flush ++ buffer.take (buffer.length - reserve), false, buffer.length, exts ++ cands⟩

/-- One full round of the scanner on a non-empty buffer (`src/buf.rs`
lines 60-131), starting from the incoming candidate prefix lengths. -/
def processChunk (token buffer : List Nat) : List Nat → ChunkResult
  | [] => searchAndReserve token buffer [] []
  | l0 :: rest =>
    match scanPrefixes token buffer l0 (l0 :: rest) with
    | Sum.inr (w, used) => ⟨w, true, used, []⟩
    | Sum.inl (exts, partmatch) =>
      searchAndReserve token buffer exts (if partmatch then [] else token.take l0)

/-- Scanner outcome: sink contents, number of bytes consumed, whether the
token was found, and the remaining source. -/
structure SutResult where
  out : List Nat
  read : Nat
  found : Bool
  src : Source
  deriving Repr, DecidableEq

/-- The scanner loop (`src/buf.rs` lines 37-140).  `fuel` bounds the
number of refills; each looping round consumes at least one byte, so
`totalLen src + 1` fuel always suffices. -/
def sutLoop (token : List Nat) : Nat → Source → List Nat → SutResult
  | 0, src, _ => ⟨[], 0, false, src⟩
  | fuel + 1, src, prefixes =>
    match fillBuf src with
    | [] => ⟨[], 0, false, src⟩
    | b :: bs =>
      let r := processChunk token (b :: bs) prefixes
      let src' := consume r.used src
      if r.found then ⟨r.out, r.used, true, src'⟩
      else if r.used = 0 then ⟨r.out, r.used, false, src'⟩
      else
        let rec' := sutLoop token fuel src' r.prefixes
        ⟨r.out ++ rec'.out, r.used + rec'.read, rec'.found, rec'.src⟩

/-- `stream_until_token` (`src/buf.rs` lines 28-143): stream bytes from
the source to the sink until the token is found, returning also the
consumed byte count. -/
def stream_until_token (token : List Nat) (src : Source) : SutResult :=
  sutLoop token (totalLen src + 1) src []

/-! ## Byte and string helpers -/

/-- Byte list of a string (ASCII in all inputs this development uses). -/
def strBytes (s : String) : List Nat := s.data.map Char.toNat

/-- Lowercase a single ASCII byte. -/
def lowerByte (b : Nat) : Nat := if 65 ≤ b ∧ b ≤ 90 then b + 32 else b

/-- Build a string back from bytes (used only on ASCII header text). -/
def bytesToString (bs : List Nat) : String := String.mk (bs.map Char.ofNat)

/-- Drop leading spaces and horizontal tabs. -/
def trimLeftBytes (bs : List Nat) : List Nat := bs.dropWhile (fun b => b = 32 ∨ b = 9)

/-- Drop spaces and horizontal tabs on both ends. -/
def trimBytes (bs : List Nat) : List Nat :=
  ((trimLeftBytes bs).reverse.dropWhile (fun b => b = 32 ∨ b = 9)).reverse

/-- Strict UTF-8 decoding step, with fuel bounded by the list length.
Models Rust `String::from_utf8`: rejects overlong forms, surrogates and
code points above U+10FFFF. -/
def utf8Go : Nat → List Nat → Option (List Char)
  | _, [] => some []
  | 0, _ :: _ => none
  | f + 1, b :: rest =>
    if b < 128 then (utf8Go f rest).map (Char.ofNat b :: ·)
    else if 194 ≤ b ∧ b ≤ 223 then
      match rest with
      | c :: rest2 =>
        if 128 ≤ c ∧ c ≤ 191 then
          (utf8Go f rest2).map (Char.ofNat ((b - 192) * 64 + (c - 128)) :: ·)
        else none
      | _ => none
    else if 224 ≤ b ∧ b ≤ 239 then
      match rest with
      | c :: d :: rest2 =>
        let cLo := if b = 224 then 160 else 128
        let cHi := if b = 237 then 159 else 191
        if cLo ≤ c ∧ c ≤ cHi ∧ 128 ≤ d ∧ d ≤ 191 then
          (utf8Go f rest2).map
            (Char.ofNat ((b - 224) * 4096 + (c - 128) * 64 + (d - 128)) :: ·)
        else none
      | _ => none
    else if 240 ≤ b ∧ b ≤ 244 then
      match rest with
      | c :: d :: e :: rest2 =>
        let cLo := if b = 240 then 144 else 128
        let cHi := if b = 244 then 143 else 191
        if cLo ≤ c ∧ c ≤ cHi ∧ 128 ≤ d ∧ d ≤ 191 ∧ 128 ≤ e ∧ e ≤ 191 then
          (utf8Go f rest2).map
            (Char.ofNat ((b - 240) * 262144 + (c - 128) * 4096 + (d - 128) * 64 + (e - 128)) :: ·)
        else none
      | _ => none
    else none

/-- Modelled from the spec: `String::from_utf8` (std, outside the crate):
decode bytes as strict UTF-8 or fail. -/
def utf8Decode (bs : List Nat) : Option String := (utf8Go bs.length bs).map String.mk

/-! ## Data model: mime types, dispositions, headers

These mirror the external `mime` / `hyper` data types the crate uses
(`Mime`, `ContentType`, `ContentDisposition`); the crate only constructs
and pattern-matches them. -/

/-- `mime::TopLevel` (the variants exercised by the crate). -/
inductive TopLevelM
  | multipart
  | text
  | image
  | extTop (s : String)
  deriving Repr, DecidableEq

/-- `mime::SubLevel` (the variants exercised by the crate; `mixed` and
`gif` come through as `Ext`). -/
inductive SubLevelM
  | formData
  | plain
  | extSub (s : String)
  deriving Repr, DecidableEq

/-- `mime::Attr`. -/
inductive AttrM
  | charset
  | boundary
  | extAttr (s : String)
  deriving Repr, DecidableEq

/-- `mime::Value`: `Utf8` arises only from `charset=utf-8`. -/
inductive ValueM
  | utf8
  | extVal (s : String)
  deriving Repr, DecidableEq

/-- `mime::Mime`: top level, sub level and parameter list. -/
structure MimeM where
  top : TopLevelM
  sub : SubLevelM
  params : List (AttrM × ValueM)
  deriving Repr, DecidableEq

/-- The default content type `mime!(Text/Plain; Charset=Utf8)` used when a
file section carries no `Content-Type` (`src/lib.rs` line 190). -/
def mimeTextPlainUtf8 : MimeM := ⟨.text, .plain, [(.charset, .utf8)]⟩

/-- `hyper::header::Charset`, reduced to the variants the modelled header
parser can produce (`Ext("UTF-8")` for plain `filename=` parameters). -/
inductive CharsetM
  | usAscii
  | extC (s : String)
  deriving Repr, DecidableEq

/-- `hyper::header::DispositionType`. -/
inductive DispTypeM
  | inlineD
  | attachment
  | extD (s : String)
  deriving Repr, DecidableEq

/-- `hyper::header::DispositionParam`. -/
inductive DispParamM
  | filename (charset : CharsetM) (bytes : List Nat)
  | extP (token value : String)
  deriving Repr, DecidableEq

/-- `hyper::header::ContentDisposition`. -/
structure ContentDispositionM where
  disposition : DispTypeM
  parameters : List DispParamM
  deriving Repr, DecidableEq

/-- The typed view of a section's (or request's) headers that the crate
reads through `hyper::Headers::get`. -/
structure HeadersM where
  contentType : Option MimeM
  contentDisposition : Option ContentDispositionM
  deriving Repr, DecidableEq

/-! ## Modelled header parsing (external collaborators, spec §6) -/

/-- Split a byte list at each CRLF, with fuel bounded by the length. -/
def splitCRLFGo : Nat → List Nat → List (List Nat)
  | 0, bs => [bs]
  | f + 1, bs =>
    match firstTokenIndex [13, 10] bs with
    | some i => bs.take i :: splitCRLFGo f (bs.drop (i + 2))
    | none => [bs]

/-- Split a byte list into CRLF-separated lines. -/
def splitCRLF (bs : List Nat) : List (List Nat) := splitCRLFGo bs.length bs

/-- Split a character list at the first occurrence of `sep`. -/
def splitAtChar (sep : Char) (cs : List Char) : List Char × List Char :=
  match cs.findIdx? (· = sep) with
  | some i => (cs.take i, cs.drop (i + 1))
  | none => (cs, [])

/-- Split a character list at every occurrence of `sep`, with fuel. -/
def splitAllCharGo (sep : Char) : Nat → List Char → List (List Char)
  | 0, cs => [cs]
  | f + 1, cs =>
    match cs.findIdx? (· = sep) with
    | some i => cs.take i :: splitAllCharGo sep f (cs.drop (i + 1))
    | none => [cs]

/-- Split a character list at every occurrence of `sep`. -/
def splitAllChar (sep : Char) (cs : List Char) : List (List Char) :=
  splitAllCharGo sep cs.length cs

/-- Drop spaces and tabs on both ends of a character list. -/
def trimChars (cs : List Char) : List Char :=
  ((cs.dropWhile (fun c => c = ' ' ∨ c = '\t')).reverse.dropWhile
    (fun c => c = ' ' ∨ c = '\t')).reverse

/-- Lowercase ASCII characters in a list. -/
def lowerChars (cs : List Char) : List Char :=
  cs.map (fun c => if 'A' ≤ c ∧ c ≤ 'Z' then Char.ofNat (c.toNat + 32) else c)

/-- Strip one pair of surrounding double quotes, if present. -/
def unquote (cs : List Char) : List Char :=
  match cs with
  | '"' :: rest =>
    if rest ≠ [] ∧ rest.getLast? = some '"' then rest.dropLast else cs
  | _ => cs

/-- Outcome of the modelled raw header-block parse. -/
inductive HeaderBlockResult
  | complete (headers : List (String × String))
  | partialBlock
  | malformed
  deriving Repr, DecidableEq

/-- Modelled from the spec: the external header-block parser
(`httparse::parse_headers` + `hyper::Headers::from_raw`, spec §6): given
raw bytes, take the CRLF-separated lines up to the blank line; each line
must contain a colon, and yields a (lowercased name, trimmed value) pair.
A block with no blank-line terminator is partial; a non-empty line without
a colon is malformed. -/
def parseHeaderBlock (raw : List Nat) : HeaderBlockResult :=
  let lines := splitCRLF raw
  if ¬ lines.any (· = []) then .partialBlock
  else
    let hdrLines := lines.takeWhile (· ≠ [])
    if hdrLines.any (fun l => ¬ l.contains 58) then .malformed
    else .complete (hdrLines.map (fun l =>
      match l.findIdx? (· = 58) with
      | some i => (bytesToString ((l.take i).map lowerByte),
                   bytesToString (trimBytes (l.drop (i + 1))))
      | none => ("", "")))

/-- Modelled from the spec: the `hyper` `Content-Disposition` header
parser (spec §6 header accessors): the text before the first `;` is the
disposition type (lowercased; `inline` and `attachment` are recognized,
anything else is `Ext`); each following `k=v` section becomes a `name`
parameter, a `filename` parameter (UTF-8 charset-tagged bytes) or a
generic `Ext` parameter, with quotes stripped from the value. -/
def parseContentDisposition (v : String) : ContentDispositionM :=
  match splitAllChar ';' v.data with
  | [] => ⟨.extD "", []⟩
  | first :: rest =>
    let dispo := String.mk (lowerChars (trimChars first))
    let dt : DispTypeM :=
      if dispo = "inline" then .inlineD
      else if dispo = "attachment" then .attachment
      else .extD dispo
    let params := rest.filterMap (fun sec =>
      let (k0, v0) := splitAtChar '=' sec
      if ¬ sec.contains '=' then none
      else
        let k := String.mk (lowerChars (trimChars k0))
        let val := String.mk (unquote (trimChars v0))
        if k = "filename" then
          some (DispParamM.filename (.extC "UTF-8") (strBytes val))
        else some (DispParamM.extP k val))
    ⟨dt, params⟩

/-- Modelled from the spec: the `mime` content-type parser (spec §6): a
`top/sub` pair followed by `;`-separated `attr=value` parameters; the
known enum variants the crate matches on are produced for `multipart`,
`text`, `image`, `form-data`, `plain`, `charset`, `boundary` and
`charset=utf-8`. -/
def parseMime (v : String) : Option MimeM :=
  match splitAllChar ';' v.data with
  | [] => none
  | first :: rest =>
    let (t0, s0) := splitAtChar '/' first
    if ¬ first.contains '/' then none
    else
      let t := String.mk (lowerChars (trimChars t0))
      let s := String.mk (lowerChars (trimChars s0))
      let top : TopLevelM :=
        if t = "multipart" then .multipart
        else if t = "text" then .text
        else if t = "image" then .image
        else .extTop t
      let sub : SubLevelM :=
        if s = "form-data" then .formData
        else if s = "plain" then .plain
        else .extSub s
      let params := rest.filterMap (fun sec =>
        let (k0, v0) := splitAtChar '=' sec
        if ¬ sec.contains '=' then none
        else
          let k := String.mk (lowerChars (trimChars k0))
          let val := String.mk (unquote (trimChars v0))
          let attr : AttrM :=
            if k = "charset" then .charset
            else if k = "boundary" then .boundary
            else .extAttr k
          let value : ValueM :=
            if attr = .charset ∧ val.toLower = "utf-8" then .utf8
            else .extVal val
          some (attr, value))
      some ⟨top, sub, params⟩

/-- Modelled from the spec: `hyper::Headers` typed lookup (spec §6): find
the first header with the given (already lowercased) name. -/
def findHeader (headers : List (String × String)) (name : String) : Option String :=
  (headers.find? (fun p => p.1 = name)).map (·.2)

/-- Build the typed header view from the parsed raw header lines. -/
def headersFromRaw (headers : List (String × String)) : HeadersM :=
  { contentType := (findHeader headers "content-type").bind parseMime
    contentDisposition :=
      (findHeader headers "content-disposition").map parseContentDisposition }

/-! ## Error taxonomy and crate helper functions (`src/error.rs`, `src/lib.rs`) -/

/-- The `formdata` error type (`src/error.rs`, plus the `InvalidDisposition`
and `Decoding` variants that `src/lib.rs` uses). `httparse` variants carry
no payload here. -/
inductive ParseError
  | noRequestContentType
  | notMultipart
  | notFormData
  | boundaryNotSpecified
  | partialHeaders
  | missingDisposition
  | invalidDisposition
  | noName
  | eofErr
  | httparseErr
  | utf8Err
  | decodingErr
  deriving Repr, DecidableEq

/-- `is_multipart_mixed` (`src/lib.rs` lines 214-231). -/
def is_multipart_mixed (ct : Option MimeM) : Bool :=
  match ct with
  | none => false
  | some m =>
    if m.top ≠ .multipart then false
    else match m.sub with
      | .extSub ext => ext = "mixed"
      | _ => false

/-- `get_boundary_token` (`src/lib.rs` lines 285-293): first
`(Attr::Boundary, Value::Ext(val))` parameter yields `"--" ++ val`. -/
def get_boundary_token (params : List (AttrM × ValueM)) : Except ParseError String :=
  match params.find? (fun p =>
      match p with
      | (.boundary, .extVal _) => true
      | _ => false) with
  | some (_, .extVal v) => .ok ("--" ++ v)
  | _ => .error .boundaryNotSpecified

/-- `get_multipart_boundary` (`src/lib.rs` lines 234-252): the
precondition check on the request headers, before any scanning. -/
def get_multipart_boundary (headers : HeadersM) : Except ParseError String :=
  match headers.contentType with
  | none => .error .noRequestContentType
  | some m =>
    if m.top ≠ .multipart then .error .notMultipart
    else if m.sub ≠ .formData then .error .notFormData
    else get_boundary_token m.params

/-- `get_content_disposition_name` (`src/lib.rs` lines 254-266): the first
`Ext("name", value)` parameter. -/
def get_content_disposition_name (cd : ContentDispositionM) : Option String :=
  match cd.parameters.find? (fun p =>
      match p with
      | .extP t _ => t = "name"
      | _ => false) with
  | some (.extP _ v) => some v
  | _ => none

/-- `charset_decode` (`src/lib.rs` lines 303-336), over the modelled
charset variants: US-ASCII and `Ext("UTF-8")` decode, other `Ext`
charsets are unsupported. -/
def charset_decode (charset : CharsetM) (bytes : List Nat) : Option String :=
  match charset with
  | .usAscii => if bytes.all (· < 128) then some (bytesToString bytes) else none
  | .extC s => if s = "UTF-8" then utf8Decode bytes else none

/-- `get_content_disposition_filename` (`src/lib.rs` lines 268-283): the
first `Filename` parameter, charset-decoded; a decode failure is the
fatal `Decoding` error. -/
def get_content_disposition_filename (cd : ContentDispositionM) :
    Except ParseError (Option String) :=
  match cd.parameters.find? (fun p =>
      match p with
      | .filename _ _ => true
      | _ => false) with
  | some (.filename c b) =>
    match charset_decode c b with
    | some s => .ok (some s)
    | none => .error .decodingErr
  | _ => .ok none

/-- `crlf_boundary` (`src/lib.rs` lines 296-301). -/
def crlf_boundary (boundary : List Nat) : List Nat := [13, 10] ++ boundary

/-! ## The multipart state machine (`src/lib.rs`, `run_state_machine`) -/

/-- `UploadedFile` (`src/uploaded_file.rs`), with the on-disk temp file
modelled by its byte `content` (path and temp directory are I/O handles
with no bearing on the parse result). -/
structure UploadedFileM where
  filename : Option String
  content_type : MimeM
  size : Nat
  content : List Nat
  deriving Repr, DecidableEq

/-- `FormData` (`src/form_data.rs` as used by `src/lib.rs`): ordered field
pairs and ordered (name, uploaded file) pairs. -/
structure FormDataM where
  fields : List (String × String)
  files : List (String × UploadedFileM)
  deriving Repr, DecidableEq

/-- `MultipartSubLevel` (`src/lib.rs` lines 69-76): the parser mode. -/
inductive ModeM
  | formDataMode
  | mixed (name : String)
  deriving Repr, DecidableEq

/-- `State` (`src/lib.rs` lines 54-67). -/
inductive StateM
  | discarding
  | readingHeaders
  | capturingMixed (cd : ContentDispositionM) (ct : MimeM)
  | capturingValue (cd : ContentDispositionM)
  | capturingFile (cd : ContentDispositionM) (ct : Option MimeM)
  deriving Repr, DecidableEq

/-- Result of a parse: success, a typed error, a Rust panic (integer
underflow or `unreachable!`), or fuel exhaustion of the model (never hit
with adequate fuel). -/
inductive Outcome (α : Type)
  | ok (a : α)
  | err (e : ParseError)
  | crashed
  | fuelOut
  deriving Repr, DecidableEq

/-- The `Discarding` state body (`src/lib.rs` lines 92-99): scan past the
plain boundary; zero bytes consumed is the fatal `Eof`. -/
def stepDiscarding (boundary : List Nat) (src : Source) : Except ParseError Source :=
  let r := stream_until_token boundary src
  if r.read = 0 then .error .eofErr else .ok r.src

/-- The two header scans of `ReadingHeaders` (`src/lib.rs` lines 110-122):
past the boundary's CRLF, then capture up to the blank line and re-append
the terminator `httparse` requires. -/
def readHeadersScan (src : Source) : Except ParseError (List Nat × Source) :=
  let r1 := stream_until_token [13, 10] src
  if r1.read = 0 then .error .eofErr
  else
    let r2 := stream_until_token [13, 10, 13, 10] r1.src
    if r2.read = 0 then .error .eofErr
    else .ok (r2.out ++ [13, 10, 13, 10], r2.src)

/-- Header parsing and mandatory-disposition check of `ReadingHeaders`
(`src/lib.rs` lines 124-140). -/
def parseSectionHeaders (raw : List Nat) :
    Except ParseError (ContentDispositionM × Option MimeM) :=
  match parseHeaderBlock raw with
  | .partialBlock => .error .partialHeaders
  | .malformed => .error .httparseErr
  | .complete hdrs =>
    let h := headersFromRaw hdrs
    match h.contentDisposition with
    | none => .error .missingDisposition
    | some cd => .ok (cd, h.contentType)

/-- The classification match of `ReadingHeaders` (`src/lib.rs` lines
142-158): choose the next capturing state from the mode, the disposition
type, the content type and the filename. -/
def classifySection (mode : ModeM) (cd : ContentDispositionM) (ct : Option MimeM)
    (cdFilename : Option String) : Except ParseError StateM :=
  match mode with
  | .formDataMode =>
    if cd.disposition = .extD "form-data" then
      match ct with
      | some ctv =>
        if is_multipart_mixed (some ctv) then .ok (.capturingMixed cd ctv)
        else .ok (.capturingFile cd (some ctv))
      | none =>
        if cdFilename.isSome then .ok (.capturingFile cd none)
        else .ok (.capturingValue cd)
    else .error .invalidDisposition
  | .mixed _ =>
    if cd.disposition = .extD "file" ∨ cd.disposition = .attachment then
      .ok (.capturingFile cd ct)
    else .error .invalidDisposition

/-- The `CapturingValue` state body (`src/lib.rs` lines 172-183): scan to
the CRLF boundary, then require a name and valid UTF-8. -/
def capturingValueStep (crlfB : List Nat) (cd : ContentDispositionM)
    (src : Source) (fd : FormDataM) : Except ParseError (Source × FormDataM) :=
  let r := stream_until_token crlfB src
  match get_content_disposition_name cd with
  | none => .error .noName
  | some key =>
    match utf8Decode r.out with
    | none => .error .utf8Err
    | some val => .ok (r.src, { fd with fields := fd.fields ++ [(key, val)] })

/-- The `CapturingFile` state body (`src/lib.rs` lines 184-209): stream
the body to the temp file, set `size = read - crlf_boundary.len()` (an
unguarded `usize` subtraction: underflow is a panic, `Outcome.crashed`),
and push the file under the mode-determined key. -/
def capturingFileStep (mode : ModeM) (crlfB : List Nat) (cd : ContentDispositionM)
    (ct : Option MimeM) (src : Source) (fd : FormDataM) :
    Outcome (Source × FormDataM) :=
  match get_content_disposition_filename cd with
  | .error e => .err e
  | .ok cdFilename =>
    let ufCT := ct.getD mimeTextPlainUtf8
    let r := stream_until_token crlfB src
    if r.read < crlfB.length then .crashed
    else
      let size := r.read - crlfB.length
      match (match mode with
             | .mixed nm => some nm
             | .formDataMode => get_content_disposition_name cd) with
      | none => .err .noName
      | some key =>
        .ok (r.src, { fd with
          files := fd.files ++ [(key, ⟨cdFilename, ufCT, size, r.out⟩)] })

/-- `run_state_machine` (`src/lib.rs` lines 79-212), as a fueled loop over
the machine states.  `CapturingMixed` recursively runs the machine on the
nested boundary in `mixed` mode, then resumes discarding in the parent. -/
def runLoop : Nat → List Nat → ModeM → Source → FormDataM → StateM →
    Outcome (FormDataM × Source)
  | 0, _, _, _, _, _ => .fuelOut
  | fuel + 1, boundary, mode, src, fd, state =>
    match state with
    | .discarding =>
      match stepDiscarding boundary src with
      | .error e => .err e
      | .ok src' => runLoop fuel boundary mode src' fd .readingHeaders
    | .readingHeaders =>
      let peeker := fillBuf src
      if 2 ≤ peeker.length ∧ peeker.take 2 = [45, 45] then .ok (fd, src)
      else
        match readHeadersScan src with
        | .error e => .err e
        | .ok (raw, src') =>
          match parseSectionHeaders raw with
          | .error e => .err e
          | .ok (cd, ct) =>
            match get_content_disposition_filename cd with
            | .error e => .err e
            | .ok cdFilename =>
              match classifySection mode cd ct cdFilename with
              | .error e => .err e
              | .ok state' => runLoop fuel boundary mode src' fd state'
    | .capturingMixed cd ct =>
      let cdName := get_content_disposition_name cd
      match get_boundary_token ct.params with
      | .error e => .err e
      | .ok bStr =>
        match cdName with
        | none => .err .noName
        | some nm =>
          match runLoop fuel (strBytes bStr) (.mixed nm) src fd .discarding with
          | .ok (fd', src') => runLoop fuel boundary mode src' fd' .discarding
          | other => other
    | .capturingValue cd =>
      match mode with
      | .mixed _ => .crashed
      | .formDataMode =>
        match capturingValueStep (crlf_boundary boundary) cd src fd with
        | .error e => .err e
        | .ok (src', fd') => runLoop fuel boundary mode src' fd' .readingHeaders
    | .capturingFile cd ct =>
      match capturingFileStep mode (crlf_boundary boundary) cd ct src fd with
      | .err e => .err e
      | .crashed => .crashed
      | .fuelOut => .fuelOut
      | .ok (src', fd') => runLoop fuel boundary mode src' fd' .readingHeaders

/-- `parse_multipart` (`src/lib.rs` lines 47-52): run the state machine in
form-data mode over a fresh aggregate.  The fuel is ample: every
`Discarding` or `ReadingHeaders` round consumes at least one source byte
or terminates. -/
def parse_multipart (src : Source) (boundary : String) : Outcome FormDataM :=
  match runLoop (2 * totalLen src + 16) (strBytes boundary) .formDataMode src
      ⟨[], []⟩ .discarding with
  | .ok (fd, _) => .ok fd
  | .err e => .err e
  | .crashed => .crashed
  | .fuelOut => .fuelOut

/-! ## Notions used by the theorems -/

/-- `t` occurs contiguously inside `l`. -/
def occursIn (t l : List Nat) : Prop := ∃ pre post, l = pre ++ t ++ post

/-- The largest element of a candidate list (0 when empty). -/
def pfxMax (l : List Nat) : Nat := l.foldr max 0

/-- No prefix of `t` has a proper non-empty border (a strict suffix of the
prefix equal to a shorter prefix of `t`).  Every CRLF-prefixed boundary
whose tail is CR-free satisfies this. -/
def borderFreePrefixes (t : List Nat) : Prop :=
  ∀ l, l ≤ t.length → ∀ w, w < l → 0 < w → (t.take l).drop (l - w) ≠ t.take w

instance borderFreePrefixesDec (t : List Nat) : Decidable (borderFreePrefixes t) := by
  unfold borderFreePrefixes
  infer_instance

/-! ## Concrete inputs used by the claims -/

/-- A delimiter with a repeated internal prefix (`aab` twice), the shape
that exercises the multi-candidate tracking of the scanner. -/
def dropToken : List Nat := strBytes "aabaabxxxy"

/-- The byte sequence for the chunk-invariance counterexample: the
delimiter occurs at offset 3. -/
def dropSeq : List Nat := strBytes "aabaabaabxxxy"

/-- The chunking of `dropSeq` under which the scanner mis-drops bytes:
after `aabaa`/`baab` the 5-candidate dies while the 2-candidate extends. -/
def dropChunks : Source := [strBytes "aabaa", strBytes "baab", strBytes "xxxy"]

/-- A delivery that keeps extending a short candidate while never
matching: consumed-but-unwritten bytes grow beyond `token.len() - 1`. -/
def holdChunks : Source := [strBytes "aabaa", strBytes "baab", strBytes "aabx", strBytes "zzzz"]

/-- A minimal valid form-data body up to (and including) its final
boundary, without the closing `--` marker. -/
def closingBody : String := "--b\r\nContent-Disposition: form-data; name=\"a\"\r\n\r\nv\r\n--b"

/-- A form-data body with one text field and a nested `multipart/mixed`
envelope under field name `files` holding two file parts. -/
def nestedBody : String :=
  "--A\r\nContent-Disposition: form-data; name=\"files\"\r\nContent-Type: multipart/mixed; boundary=B\r\n\r\n--B\r\nContent-Disposition: file; filename=\"f1.txt\"\r\n\r\nhi\r\n--B\r\nContent-Disposition: file; filename=\"f2.gif\"\r\nContent-Type: image/gif\r\n\r\nyo\r\n--B--\r\n--A--"

/-- A truncated body whose section headers are cut mid-line. -/
def truncatedHeaderBody : String := "--b\r\nX: y"

/-- A truncated body cut inside a field value, missing the closing
boundary. -/
def truncatedValueBody : String :=
  "--b\r\nContent-Disposition: form-data; name=\"a\"\r\n\r\nval"

/-- A truncated body cut two bytes into a file section. -/
def truncatedFileBody : String :=
  "--b\r\nContent-Disposition: form-data; name=\"a\"; filename=\"f\"\r\n\r\nhi"

/-- A minimal `multipart/mixed` body with a single one-byte file part. -/
def mixedWitnessSrc : Source := [strBytes "--B\r\nContent-Disposition: file\r\n\r\nx\r\n--B--"]

/-- The file the mixed-mode run of `mixedWitnessSrc` captures. -/
def mixedWitnessFile : UploadedFileM := ⟨none, mimeTextPlainUtf8, 1, strBytes "x"⟩

/-- The aggregate the mixed-mode run of `mixedWitnessSrc` produces. -/
def mixedWitnessFd : FormDataM := ⟨[], [("k", mixedWitnessFile)]⟩

/-- The file captured from the body `xy` delimited by `\r\n--b`. -/
def fileWitness : UploadedFileM := ⟨none, mimeTextPlainUtf8, 2, strBytes "xy"⟩

/-- The aggregate after capturing `fileWitness` in mixed mode under `a`. -/
def fileWitnessFd : FormDataM := ⟨[], [("a", fileWitness)]⟩

/-! ## Basic lemmas about the scanner's components -/

theorem le_pfxMax {l : List Nat} {x : Nat} (hx : x ∈ l) : x ≤ pfxMax l := by
  induction l with
  | nil => cases hx
  | cons a rest ih =>
    rcases List.mem_cons.mp hx with h | h
    · subst h; exact le_max_left _ _
    · exact le_trans (ih h) (le_max_right _ _)

theorem pfxMax_le {l : List Nat} {m : Nat} (h : ∀ x ∈ l, x ≤ m) : pfxMax l ≤ m := by
  induction l with
  | nil => exact Nat.zero_le m
  | cons a rest ih =>
    exact max_le (h a (List.mem_cons_self a rest))
      (ih fun x hx => h x (List.mem_cons_of_mem a hx))

theorem firstTokenIndex_some {t b : List Nat} {i : Nat}
    (h : firstTokenIndex t b = some i) : i + t.length ≤ b.length := by
  induction b generalizing i with
  | nil =>
    by_cases ht : t = [] <;> simp [firstTokenIndex, ht] at h
    subst ht; omega
  | cons x rest ih =>
    rw [firstTokenIndex] at h
    split at h
    · rename_i hcond
      cases h
      simpa using hcond.1
    · rcases Option.map_eq_some'.mp h with ⟨j, hj, rfl⟩
      have := ih hj
      simp only [List.length_cons]
      omega

theorem firstTokenIndex_none_short {t b : List Nat} (h : b.length < t.length) :
    firstTokenIndex t b = none := by
  induction b with
  | nil =>
    have : t ≠ [] := by intro he; subst he; simp at h
    simp [firstTokenIndex, this]
  | cons x rest ih =>
    rw [firstTokenIndex]
    have hn : ¬ (t.length ≤ (x :: rest).length ∧ t.isPrefixOf (x :: rest)) := by
      intro hc; omega
    rw [if_neg hn, ih (by simp at h ⊢; omega)]
    rfl

theorem mem_suffixCandidates {t b : List Nat} {n w : Nat}
    (h : w ∈ suffixCandidates t b n) :
    0 < w ∧ w ≤ n ∧ t.take w = b.drop (b.length - w) := by
  induction n with
  | zero => cases h
  | succ m ih =>
    rw [suffixCandidates] at h
    rcases List.mem_append.mp h with h1 | h2
    · split at h1
      · rename_i hmatch
        have hw : w = m + 1 := by simpa using h1
        subst hw
        exact ⟨Nat.succ_pos m, le_refl _, hmatch⟩
      · simp at h1
    · have := ih h2
      exact ⟨this.1, le_trans this.2.1 (Nat.le_succ m), this.2.2⟩

theorem suffixCandidates_single {t b : List Nat} (hbf : borderFreePrefixes t) :
    ∀ n, n ≤ t.length - 1 → n ≤ b.length →
      suffixCandidates t b n = [] ∨ ∃ w, suffixCandidates t b n = [w] := by
  intro n
  induction n with
  | zero => intro _ _; exact Or.inl rfl
  | succ m ih =>
    intro hnt hnb
    rw [suffixCandidates]
    split
    · rename_i hmatch
      right
      refine ⟨m + 1, ?_⟩
      have htail : suffixCandidates t b m = [] := by
        by_contra hne
        rcases List.exists_mem_of_ne_nil _ hne with ⟨x, hx⟩
        rcases mem_suffixCandidates hx with ⟨hx0, hxm, hxeq⟩
        -- two simultaneous candidates would give the prefix t.take (m+1) a border
        have hdd : b.drop (b.length - x) =
            (b.drop (b.length - (m + 1))).drop (m + 1 - x) := by
          rw [List.drop_drop]
          have harg : b.length - (m + 1) + (m + 1 - x) = b.length - x := by omega
          rw [harg]
        have : (t.take (m + 1)).drop (m + 1 - x) = t.take x := by
          rw [hmatch, ← hdd, hxeq]
        exact absurd this (hbf (m + 1) (by omega) x (by omega) hx0)
      rw [htail]
      rfl
    · exact ih (by omega) (by omega)

theorem suffixCandidates_nil_of_slice {t b : List Nat} {l c : Nat}
    (hbf : borderFreePrefixes t) (hl : 0 < l)
    (hb : b = (t.drop l).take c) (hcb : b.length = c) (hlen : l + c ≤ t.length) :
    ∀ n, n ≤ c → suffixCandidates t b n = [] := by
  intro n
  induction n with
  | zero => intro _; rfl
  | succ m ih =>
    intro hnb
    rw [suffixCandidates]
    have hnomatch : ¬ t.take (m + 1) = b.drop (b.length - (m + 1)) := by
      intro hmatch
      rw [hcb] at hmatch
      -- the tail of the slice is a slice of a longer prefix of t: a border
      have hslice : b.drop (c - (m + 1)) =
          (t.take (l + c)).drop (l + c - (m + 1)) := by
        have h1 : c - (c - (m + 1)) = m + 1 := by omega
        have h2 : l + c - (l + c - (m + 1)) = m + 1 := by omega
        have h3 : l + (c - (m + 1)) = l + c - (m + 1) := by omega
        rw [hb]
        simp only [List.drop_take, List.drop_drop, h1, h2, h3]
      have : (t.take (l + c)).drop (l + c - (m + 1)) = t.take (m + 1) := by
        rw [← hslice, hmatch]
      exact absurd this
        (hbf (l + c) hlen (m + 1) (by omega) (Nat.succ_pos m))
    rw [if_neg hnomatch, ih (by omega)]
    rfl

/-! ## Structural lemmas about `scanPrefixes`, `searchAndReserve`, `processChunk` -/

theorem scanPrefixes_inr {t b : List Nat} {lg : Nat} {pfx : List Nat}
    {w : List Nat} {used : Nat}
    (h : scanPrefixes t b lg pfx = Sum.inr (w, used)) :
    ∃ l ∈ pfx, used = t.length - l := by
  induction pfx with
  | nil => simp [scanPrefixes] at h
  | cons a rest ih =>
    rw [scanPrefixes] at h
    split at h
    · split at h
      · cases hrec : scanPrefixes t b lg rest with
        | inl p => rw [hrec] at h; obtain ⟨e, pm⟩ := p; simp at h
        | inr r =>
          rw [hrec] at h
          have hr : r = (w, used) := by simpa using h
          rw [hr] at hrec
          obtain ⟨l, hl, hu⟩ := ih hrec
          exact ⟨l, List.mem_cons_of_mem a hl, hu⟩
      · obtain ⟨l, hl, hu⟩ := ih h
        exact ⟨l, List.mem_cons_of_mem a hl, hu⟩
    · split at h
      · have hp : (t.take (lg - a), t.length - a) = (w, used) := Sum.inr.inj h
        exact ⟨a, List.mem_cons_self a rest, ((Prod.ext_iff.mp hp).2).symm⟩
      · obtain ⟨l, hl, hu⟩ := ih h
        exact ⟨l, List.mem_cons_of_mem a hl, hu⟩

theorem scanPrefixes_inl {t b : List Nat} {lg : Nat} {pfx : List Nat}
    {exts : List Nat} {pm : Bool}
    (h : scanPrefixes t b lg pfx = Sum.inl (exts, pm)) :
    ∀ e ∈ exts, ∃ l ∈ pfx, e = l + b.length ∧ b.length < t.length - l := by
  induction pfx generalizing exts pm with
  | nil =>
    simp only [scanPrefixes, Sum.inl.injEq, Prod.mk.injEq] at h
    rw [← h.1]
    intro e he
    cases he
  | cons a rest ih =>
    rw [scanPrefixes] at h
    split at h
    · rename_i h1
      split at h
      · rename_i h2
        cases hrec : scanPrefixes t b lg rest with
        | inl p =>
          obtain ⟨exts', pm'⟩ := p
          rw [hrec] at h
          simp only [Sum.inl.injEq, Prod.mk.injEq] at h
          rw [← h.1]
          intro e he
          rcases List.mem_cons.mp he with he | he
          · exact ⟨a, List.mem_cons_self a rest, by omega, h1⟩
          · obtain ⟨l, hl, he', hlt⟩ := ih hrec e he
            exact ⟨l, List.mem_cons_of_mem a hl, he', hlt⟩
        | inr r => rw [hrec] at h; simp at h
      · intro e he
        obtain ⟨l, hl, he', hlt⟩ := ih h e he
        exact ⟨l, List.mem_cons_of_mem a hl, he', hlt⟩
    · split at h
      · simp at h
      · intro e he
        obtain ⟨l, hl, he', hlt⟩ := ih h e he
        exact ⟨l, List.mem_cons_of_mem a hl, he', hlt⟩

theorem scanPrefixes_one_ext {t b : List Nat} {lg l : Nat}
    (h1 : b.length < t.length - l) (h2 : b = (t.drop l).take b.length) :
    scanPrefixes t b lg [l] = Sum.inl ([l + b.length], true) := by
  rw [scanPrefixes, if_pos h1, if_pos h2]
  rfl

theorem scanPrefixes_one_noext {t b : List Nat} {lg l : Nat}
    (h1 : b.length < t.length - l) (h2 : b ≠ (t.drop l).take b.length) :
    scanPrefixes t b lg [l] = Sum.inl ([], false) := by
  rw [scanPrefixes, if_pos h1, if_neg h2]
  rfl

theorem scanPrefixes_one_fit_match {t b : List Nat} {lg l : Nat}
    (h1 : ¬ b.length < t.length - l) (h2 : b.take (t.length - l) = t.drop l) :
    scanPrefixes t b lg [l] = Sum.inr (t.take (lg - l), t.length - l) := by
  rw [scanPrefixes, if_neg h1, if_pos h2]

theorem scanPrefixes_one_fit_nomatch {t b : List Nat} {lg l : Nat}
    (h1 : ¬ b.length < t.length - l) (h2 : ¬ b.take (t.length - l) = t.drop l) :
    scanPrefixes t b lg [l] = Sum.inl ([], false) := by
  rw [scanPrefixes, if_neg h1, if_neg h2]
  rfl

theorem searchAndReserve_some {t b : List Nat} {exts flush : List Nat} {idx : Nat}
    (h : firstTokenIndex t b = some idx) :
    searchAndReserve t b exts flush = ⟨flush ++ b.take idx, true, idx + t.length, exts⟩ := by
  simp only [searchAndReserve, h]

theorem searchAndReserve_none {t b : List Nat} {exts flush : List Nat}
    (h : firstTokenIndex t b = none) :
    searchAndReserve t b exts flush =
      ⟨flush ++ b.take (b.length -
          (if exts = [] then
            (suffixCandidates t b (min (t.length - 1) b.length)).headD 0
           else b.length)),
       false, b.length,
       exts ++ suffixCandidates t b (min (t.length - 1) b.length)⟩ := by
  simp only [searchAndReserve, h]

theorem processChunk_nil_pfx {t b : List Nat} :
    processChunk t b [] = searchAndReserve t b [] [] := rfl

theorem processChunk_cons_pfx {t b : List Nat} {l0 : Nat} {rest : List Nat} :
    processChunk t b (l0 :: rest) =
      match scanPrefixes t b l0 (l0 :: rest) with
      | Sum.inr (w, used) => ⟨w, true, used, []⟩
      | Sum.inl (exts, partmatch) =>
        searchAndReserve t b exts (if partmatch then [] else t.take l0) := rfl

/-! ## Consumption and candidate bounds for single rounds -/

theorem processChunk_found_used {t b : List Nat} {pfx : List Nat} (ht : t ≠ [])
    (hpfx : ∀ l ∈ pfx, l < t.length)
    (h : (processChunk t b pfx).found = true) :
    t.length ≤ (processChunk t b pfx).used + pfxMax pfx := by
  have ht' : 0 < t.length := List.length_pos.mpr ht
  cases pfx with
  | nil =>
    rw [processChunk_nil_pfx] at h ⊢
    cases hft : firstTokenIndex t b with
    | some idx =>
      rw [searchAndReserve_some hft]
      simp only
      omega
    | none => rw [searchAndReserve_none hft] at h; simp at h
  | cons l0 rest =>
    rw [processChunk_cons_pfx] at h ⊢
    cases hsp : scanPrefixes t b l0 (l0 :: rest) with
    | inr r =>
      obtain ⟨w, used⟩ := r
      rw [hsp] at h
      dsimp only at h ⊢
      obtain ⟨l, hl, hu⟩ := scanPrefixes_inr hsp
      have h1 := hpfx l hl
      have h2 : l ≤ pfxMax (l0 :: rest) := le_pfxMax hl
      omega
    | inl p =>
      obtain ⟨exts, pm⟩ := p
      rw [hsp] at h
      dsimp only at h ⊢
      cases hft : firstTokenIndex t b with
      | some idx =>
        rw [searchAndReserve_some hft]
        simp only
        omega
      | none => rw [searchAndReserve_none hft] at h; simp at h

theorem processChunk_notfound_used {t b : List Nat} {pfx : List Nat}
    (h : (processChunk t b pfx).found = false) :
    (processChunk t b pfx).used = b.length := by
  cases pfx with
  | nil =>
    rw [processChunk_nil_pfx] at h ⊢
    cases hft : firstTokenIndex t b with
    | some idx => rw [searchAndReserve_some hft] at h; simp at h
    | none => rw [searchAndReserve_none hft]
  | cons l0 rest =>
    rw [processChunk_cons_pfx] at h ⊢
    cases hsp : scanPrefixes t b l0 (l0 :: rest) with
    | inr r =>
      obtain ⟨w, used⟩ := r
      rw [hsp] at h
      simp at h
    | inl p =>
      obtain ⟨exts, pm⟩ := p
      rw [hsp] at h
      dsimp only at h ⊢
      cases hft : firstTokenIndex t b with
      | some idx => rw [searchAndReserve_some hft] at h; simp at h
      | none => rw [searchAndReserve_none hft]

theorem processChunk_notfound_prefixes {t b : List Nat} {pfx : List Nat}
    (hpfx : ∀ l ∈ pfx, l < t.length)
    (h : (processChunk t b pfx).found = false) :
    ∀ e ∈ (processChunk t b pfx).prefixes,
      e < t.length ∧ e ≤ b.length + pfxMax pfx := by
  have hcand : ∀ e ∈ suffixCandidates t b (min (t.length - 1) b.length),
      e < t.length ∧ e ≤ b.length + pfxMax pfx := by
    intro e he
    obtain ⟨h0, hw, -⟩ := mem_suffixCandidates he
    have hw1 : e ≤ t.length - 1 := le_trans hw (min_le_left _ _)
    have hw2 : e ≤ b.length := le_trans hw (min_le_right _ _)
    omega
  cases pfx with
  | nil =>
    rw [processChunk_nil_pfx] at h ⊢
    cases hft : firstTokenIndex t b with
    | some idx => rw [searchAndReserve_some hft] at h; simp at h
    | none =>
      rw [searchAndReserve_none hft]
      simpa using hcand
  | cons l0 rest =>
    rw [processChunk_cons_pfx] at h ⊢
    cases hsp : scanPrefixes t b l0 (l0 :: rest) with
    | inr r =>
      obtain ⟨w, used⟩ := r
      rw [hsp] at h
      simp at h
    | inl p =>
      obtain ⟨exts, pm⟩ := p
      rw [hsp] at h
      dsimp only at h ⊢
      cases hft : firstTokenIndex t b with
      | some idx => rw [searchAndReserve_some hft] at h; simp at h
      | none =>
        rw [searchAndReserve_none hft]
        intro e he
        simp only at he
        rcases List.mem_append.mp he with he | he
        · obtain ⟨l, hl, heq, hlt⟩ := scanPrefixes_inl hsp e he
          have h1 := hpfx l hl
          have h2 : l ≤ pfxMax (l0 :: rest) := le_pfxMax hl
          omega
        · exact hcand e he

/-! ## Round equations for the scanner loop -/

theorem sutLoop_succ_eof {t : List Nat} {f : Nat} {src : Source} {pfx : List Nat}
    (hfb : fillBuf src = []) :
    sutLoop t (f + 1) src pfx = ⟨[], 0, false, src⟩ := by
  simp only [sutLoop, hfb]

theorem sutLoop_succ_found {t : List Nat} {f : Nat} {src : Source} {pfx : List Nat}
    {b : Nat} {bs : List Nat} (hfb : fillBuf src = b :: bs)
    (hf : (processChunk t (b :: bs) pfx).found = true) :
    sutLoop t (f + 1) src pfx =
      ⟨(processChunk t (b :: bs) pfx).out, (processChunk t (b :: bs) pfx).used, true,
       consume (processChunk t (b :: bs) pfx).used src⟩ := by
  simp only [sutLoop, hfb, hf, if_true]

theorem sutLoop_succ_stuck {t : List Nat} {f : Nat} {src : Source} {pfx : List Nat}
    {b : Nat} {bs : List Nat} (hfb : fillBuf src = b :: bs)
    (hf : (processChunk t (b :: bs) pfx).found = false)
    (hu : (processChunk t (b :: bs) pfx).used = 0) :
    sutLoop t (f + 1) src pfx =
      ⟨(processChunk t (b :: bs) pfx).out, (processChunk t (b :: bs) pfx).used, false,
       consume (processChunk t (b :: bs) pfx).used src⟩ := by
  simp only [sutLoop, hfb, hf, hu, if_true, Bool.false_eq_true, if_false]

theorem sutLoop_succ_step {t : List Nat} {f : Nat} {src : Source} {pfx : List Nat}
    {b : Nat} {bs : List Nat} (hfb : fillBuf src = b :: bs)
    (hf : (processChunk t (b :: bs) pfx).found = false)
    (hu : (processChunk t (b :: bs) pfx).used ≠ 0) :
    sutLoop t (f + 1) src pfx =
      ⟨(processChunk t (b :: bs) pfx).out ++
         (sutLoop t f (consume (processChunk t (b :: bs) pfx).used src)
           (processChunk t (b :: bs) pfx).prefixes).out,
       (processChunk t (b :: bs) pfx).used
         + (sutLoop t f (consume (processChunk t (b :: bs) pfx).used src)
             (processChunk t (b :: bs) pfx).prefixes).read,
       (sutLoop t f (consume (processChunk t (b :: bs) pfx).used src)
         (processChunk t (b :: bs) pfx).prefixes).found,
       (sutLoop t f (consume (processChunk t (b :: bs) pfx).used src)
         (processChunk t (b :: bs) pfx).prefixes).src⟩ := by
  simp only [sutLoop, hfb, hf, hu, Bool.false_eq_true, if_false]

/-! ## Consumption accounting across the whole scan -/

theorem totalLen_cons {c : List Nat} {rest : Source} :
    totalLen (c :: rest) = c.length + totalLen rest := by
  simp [totalLen]

theorem consume_full {c : List Nat} {rest : Source} :
    consume c.length (c :: rest) = rest := by
  simp [consume]

theorem totalLen_eq_flatten (src : Source) : totalLen src = (flattenSrc src).length := by
  simp [totalLen, flattenSrc, List.length_flatten]

theorem fillBuf_cons {c : List Nat} {rest : Source} : fillBuf (c :: rest) = c := rfl

/-- If the scanner reports the token found, the consumed count plus the
largest incoming candidate covers the whole token. -/
theorem sutLoop_found_read {t : List Nat} (ht : t ≠ []) :
    ∀ fuel src pfx, (∀ l ∈ pfx, l < t.length) →
      (sutLoop t fuel src pfx).found = true →
      t.length ≤ (sutLoop t fuel src pfx).read + pfxMax pfx := by
  intro fuel
  induction fuel with
  | zero => intro src pfx _ h; simp [sutLoop] at h
  | succ f ih =>
    intro src pfx hpfx h
    cases hfb : fillBuf src with
    | nil => rw [sutLoop_succ_eof hfb] at h; simp at h
    | cons x xs =>
      by_cases hfound : (processChunk t (x :: xs) pfx).found = true
      · rw [sutLoop_succ_found hfb hfound]
        have := processChunk_found_used ht hpfx hfound
        dsimp only
        omega
      · rw [Bool.not_eq_true] at hfound
        by_cases hu : (processChunk t (x :: xs) pfx).used = 0
        · rw [sutLoop_succ_stuck hfb hfound hu] at h
          simp at h
        · rw [sutLoop_succ_step hfb hfound hu] at h ⊢
          dsimp only at h ⊢
          have hpfx' := processChunk_notfound_prefixes hpfx hfound
          have hrec := ih (consume (processChunk t (x :: xs) pfx).used src)
            (processChunk t (x :: xs) pfx).prefixes
            (fun l hl => (hpfx' l hl).1) h
          have hmax : pfxMax (processChunk t (x :: xs) pfx).prefixes ≤
              (x :: xs).length + pfxMax pfx :=
            pfxMax_le (fun e he => (hpfx' e he).2)
          have husd : (processChunk t (x :: xs) pfx).used = (x :: xs).length :=
            processChunk_notfound_used hfound
          omega

/-- If the scanner never finds the token, it consumes the entire source
(when every chunk is non-empty and the fuel covers the source). -/
theorem sutLoop_notfound_read {t : List Nat} :
    ∀ fuel src pfx, (∀ c ∈ src, c ≠ []) → totalLen src < fuel →
      (sutLoop t fuel src pfx).found = false →
      (sutLoop t fuel src pfx).read = totalLen src := by
  intro fuel
  induction fuel with
  | zero => intro src pfx _ hlt _; omega
  | succ f ih =>
    intro src pfx hne hlt h
    cases src with
    | nil => rw [sutLoop_succ_eof (show fillBuf ([] : Source) = [] from rfl)]; rfl
    | cons c rest =>
      have hc : c ≠ [] := hne c (List.mem_cons_self c rest)
      obtain ⟨x, xs, rfl⟩ : ∃ x xs, c = x :: xs := by
        cases c with
        | nil => exact absurd rfl hc
        | cons x xs => exact ⟨x, xs, rfl⟩
      have hfb : fillBuf ((x :: xs) :: rest) = x :: xs := rfl
      by_cases hfound : (processChunk t (x :: xs) pfx).found = true
      · rw [sutLoop_succ_found hfb hfound] at h
        simp at h
      · rw [Bool.not_eq_true] at hfound
        have husd : (processChunk t (x :: xs) pfx).used = (x :: xs).length :=
          processChunk_notfound_used hfound
        have hu : (processChunk t (x :: xs) pfx).used ≠ 0 := by
          rw [husd]; simp
        rw [sutLoop_succ_step hfb hfound hu] at h ⊢
        dsimp only at h ⊢
        have hcons : consume (processChunk t (x :: xs) pfx).used ((x :: xs) :: rest)
            = rest := by
          rw [husd]; exact consume_full
        rw [hcons] at h ⊢
        have hlt' : totalLen rest < f := by
          have hto : totalLen ((x :: xs) :: rest) = (x :: xs).length + totalLen rest :=
            totalLen_cons
          simp only [List.length_cons] at hto
          omega
        have := ih rest (processChunk t (x :: xs) pfx).prefixes
          (fun d hd => hne d (List.mem_cons_of_mem _ hd)) hlt' h
        rw [this, husd, totalLen_cons]

/-- `stream_until_token`: a found token implies at least `token.length`
bytes consumed. -/
theorem stream_found_read {t : List Nat} {src : Source} (ht : t ≠ [])
    (h : (stream_until_token t src).found = true) :
    t.length ≤ (stream_until_token t src).read := by
  have := sutLoop_found_read ht (totalLen src + 1) src [] (by intro l hl; cases hl) h
  simpa [stream_until_token, pfxMax] using this

/-- `stream_until_token`: an unmatched token implies the whole source was
consumed. -/
theorem stream_notfound_read {t : List Nat} {src : Source}
    (hne : ∀ c ∈ src, c ≠ []) (h : (stream_until_token t src).found = false) :
    (stream_until_token t src).read = totalLen src := by
  exact sutLoop_notfound_read (totalLen src + 1) src [] hne (Nat.lt_succ_self _) h

/-! ## Output accounting for border-free delimiters

When no prefix of the delimiter has a proper border, the scanner holds at
most one candidate at a time, and then the sink length plus the delimiter
length equals the consumed count whenever the delimiter is found.  Every
CRLF-prefixed boundary whose tail is CR-free is border-free. -/

/-- The loop invariant: either no candidate is pending and all consumed
bytes were written, or exactly one candidate of length `d` is pending
(`d` consumed bytes not yet written). -/
def scanDebt (t : List Nat) (pfx : List Nat) (d : Nat) : Prop :=
  (pfx = [] ∧ d = 0) ∨ (∃ l, pfx = [l] ∧ 0 < l ∧ l < t.length ∧ d = l)

theorem processChunk_bf {t : List Nat} (hbf : borderFreePrefixes t)
    {b : List Nat} {pfx : List Nat} {d : Nat} (hInv : scanDebt t pfx d) :
    ((processChunk t b pfx).found = true →
      (processChunk t b pfx).out.length + t.length = (processChunk t b pfx).used + d)
    ∧ ((processChunk t b pfx).found = false →
      ∃ d', scanDebt t (processChunk t b pfx).prefixes d' ∧
        (processChunk t b pfx).out.length + d' = (processChunk t b pfx).used + d) := by
  have hwin1 : min (t.length - 1) b.length ≤ t.length - 1 := min_le_left _ _
  have hwin2 : min (t.length - 1) b.length ≤ b.length := min_le_right _ _
  -- the two `searchAndReserve` outcomes with a possibly-empty flush
  have hsr : ∀ flush : List Nat,
      ((searchAndReserve t b [] flush).found = true →
        (searchAndReserve t b [] flush).out.length + t.length =
          (searchAndReserve t b [] flush).used + flush.length)
      ∧ ((searchAndReserve t b [] flush).found = false →
        ∃ d', scanDebt t (searchAndReserve t b [] flush).prefixes d' ∧
          (searchAndReserve t b [] flush).out.length + d' =
            (searchAndReserve t b [] flush).used + flush.length) := by
    intro flush
    cases hft : firstTokenIndex t b with
    | some idx =>
      rw [searchAndReserve_some hft]
      have hidx := firstTokenIndex_some hft
      constructor
      · intro _
        dsimp only
        rw [List.length_append, List.length_take]
        omega
      · intro hco; simp at hco
    | none =>
      rw [searchAndReserve_none hft]
      constructor
      · intro hco; simp at hco
      · intro _
        dsimp only
        rw [if_pos rfl, List.nil_append]
        rcases suffixCandidates_single hbf (min (t.length - 1) b.length) hwin1 hwin2
          with hc | ⟨w, hc⟩
        · refine ⟨0, Or.inl ⟨by rw [hc], rfl⟩, ?_⟩
          rw [hc]
          simp only [List.headD_nil]
          rw [List.length_append, List.length_take]
          omega
        · have hwmem : w ∈ suffixCandidates t b (min (t.length - 1) b.length) := by
            rw [hc]; exact List.mem_cons_self w []
          obtain ⟨hw0, hwle, -⟩ := mem_suffixCandidates hwmem
          refine ⟨w, Or.inr ⟨w, by rw [hc], hw0, by omega, rfl⟩, ?_⟩
          rw [hc]
          simp only [List.headD_cons]
          rw [List.length_append, List.length_take]
          omega
  rcases hInv with ⟨hpfx, hd⟩ | ⟨l, hpfx, hl0, hlt, hd⟩
  · subst hpfx hd
    rw [processChunk_nil_pfx]
    have := hsr []
    simpa using this
  · subst hpfx
    rw [hd]
    rw [processChunk_cons_pfx]
    by_cases h1 : b.length < t.length - l
    · by_cases h2 : b = (t.drop l).take b.length
      · -- the single candidate extends across this buffer
        rw [scanPrefixes_one_ext h1 h2]
        dsimp only
        have hft : firstTokenIndex t b = none :=
          firstTokenIndex_none_short (by omega)
        rw [searchAndReserve_none hft]
        have hcands : suffixCandidates t b (min (t.length - 1) b.length) = [] :=
          suffixCandidates_nil_of_slice hbf hl0 h2 rfl (by omega) _ hwin2
        constructor
        · intro hco; simp at hco
        · intro _
          dsimp only
          refine ⟨l + b.length, ?_, ?_⟩
          · rw [hcands]
            exact Or.inr ⟨l + b.length, rfl, by omega, by omega, rfl⟩
          · have hift : (if true = true then ([] : List Nat) else t.take l) = [] :=
              if_pos rfl
            have hifr : (if ([l + b.length] : List Nat) = [] then
                (suffixCandidates t b ((t.length - 1) ⊓ b.length)).headD 0
              else b.length) = b.length := if_neg (by simp)
            rw [hift, hifr, Nat.sub_self, List.take_zero, List.nil_append]
            simp only [List.length_nil]
            omega
      · -- the candidate dies: flush its bytes and rescan
        rw [scanPrefixes_one_noext h1 h2]
        dsimp only
        have := hsr (t.take l)
        rw [List.length_take, min_eq_left (by omega : l ≤ t.length)] at this
        simpa using this
    · by_cases h2 : b.take (t.length - l) = t.drop l
      · -- the candidate resolves: the token straddles the buffer start
        rw [scanPrefixes_one_fit_match h1 h2]
        dsimp only
        constructor
        · intro _
          rw [Nat.sub_self, List.take_zero]
          simp only [List.length_nil]
          omega
        · intro hco; simp at hco
      · rw [scanPrefixes_one_fit_nomatch h1 h2]
        dsimp only
        have := hsr (t.take l)
        rw [List.length_take, min_eq_left (by omega : l ≤ t.length)] at this
        simpa using this

theorem sutLoop_bf {t : List Nat} (hbf : borderFreePrefixes t) :
    ∀ fuel src pfx d, scanDebt t pfx d →
      (sutLoop t fuel src pfx).found = true →
      (sutLoop t fuel src pfx).out.length + t.length =
        (sutLoop t fuel src pfx).read + d := by
  intro fuel
  induction fuel with
  | zero => intro src pfx d _ h; simp [sutLoop] at h
  | succ f ih =>
    intro src pfx d hInv h
    cases hfb : fillBuf src with
    | nil => rw [sutLoop_succ_eof hfb] at h; simp at h
    | cons x xs =>
      by_cases hfound : (processChunk t (x :: xs) pfx).found = true
      · rw [sutLoop_succ_found hfb hfound]
        exact (processChunk_bf hbf hInv).1 hfound
      · rw [Bool.not_eq_true] at hfound
        by_cases hu : (processChunk t (x :: xs) pfx).used = 0
        · rw [sutLoop_succ_stuck hfb hfound hu] at h
          simp at h
        · rw [sutLoop_succ_step hfb hfound hu] at h ⊢
          dsimp only at h ⊢
          obtain ⟨d', hInv', heq⟩ := (processChunk_bf hbf hInv).2 hfound
          have hrec := ih (consume (processChunk t (x :: xs) pfx).used src)
            (processChunk t (x :: xs) pfx).prefixes d' hInv' h
          rw [List.length_append]
          omega

/-- For a border-free delimiter, finding it means the sink plus the
delimiter account for every consumed byte. -/
theorem stream_bf_found {t : List Nat} {src : Source} (hbf : borderFreePrefixes t)
    (h : (stream_until_token t src).found = true) :
    (stream_until_token t src).out.length + t.length = (stream_until_token t src).read := by
  have := sutLoop_bf hbf (totalLen src + 1) src [] 0 (Or.inl ⟨rfl, rfl⟩) h
  simpa [stream_until_token] using this

/-- A CRLF-prefixed boundary whose tail contains no CR byte is
border-free: every non-trivial border would have to start with the CR at
position 0. -/
theorem crlf_borderFree {b : List Nat} (hb : ∀ x ∈ b, x ≠ 13) :
    borderFreePrefixes (crlf_boundary b) := by
  intro l hl w hw hw0 heq
  have hhead := congrArg List.head? heq
  rw [List.head?_drop, List.getElem?_take, List.head?_take,
      if_pos (show l - w < l by omega), if_neg (show ¬ w = 0 by omega)] at hhead
  have hcb : crlf_boundary b = 13 :: 10 :: b := rfl
  rw [hcb] at hhead
  rw [List.head?_cons] at hhead
  rcases Nat.lt_or_ge (l - w) 2 with hk | hk
  · have hk1 : l - w = 1 := by omega
    rw [hk1] at hhead
    simp at hhead
  · obtain ⟨j, hj⟩ : ∃ j, l - w = j + 2 := ⟨l - w - 2, by omega⟩
    rw [hj, List.getElem?_cons_succ, List.getElem?_cons_succ] at hhead
    obtain ⟨hjlt, hbj⟩ := List.getElem?_eq_some_iff.mp hhead
    exact absurd hbj (hb _ (List.getElem_mem hjlt))

/-! ## Lemmas about the state-machine steps -/

theorem stream_read_zero_iff {t : List Nat} {src : Source} (ht : t ≠ []) :
    (stream_until_token t src).read = 0 ↔ fillBuf src = [] := by
  constructor
  · intro h
    by_contra hfb
    obtain ⟨x, xs, hfx⟩ : ∃ x xs, fillBuf src = x :: xs := by
      cases hc : fillBuf src with
      | nil => exact absurd hc hfb
      | cons x xs => exact ⟨x, xs, rfl⟩
    rw [stream_until_token] at h
    by_cases hfound : (processChunk t (x :: xs) []).found = true
    · rw [sutLoop_succ_found hfx hfound] at h
      dsimp only at h
      have hb := processChunk_found_used ht (by intro l hl; cases hl) hfound
      have ht' : 0 < t.length := List.length_pos.mpr ht
      simp only [pfxMax, List.foldr_nil] at hb
      omega
    · rw [Bool.not_eq_true] at hfound
      have husd := processChunk_notfound_used hfound
      have hu : (processChunk t (x :: xs) []).used ≠ 0 := by rw [husd]; simp
      rw [sutLoop_succ_step hfx hfound hu] at h
      dsimp only at h
      omega
  · intro hfb
    rw [stream_until_token, sutLoop_succ_eof hfb]

/-- The `Discarding` step fails exactly when the source is exhausted on
entry, and then the failure is `Eof`. -/
theorem stepDiscarding_eof_iff {boundary : List Nat} {src : Source}
    (hb : boundary ≠ []) :
    stepDiscarding boundary src = .error .eofErr ↔ fillBuf src = [] := by
  rw [stepDiscarding]
  constructor
  · intro h
    by_cases hr : (stream_until_token boundary src).read = 0
    · exact (stream_read_zero_iff hb).mp hr
    · rw [if_neg hr] at h
      cases h
  · intro hfb
    rw [if_pos ((stream_read_zero_iff hb).mpr hfb)]

theorem find?_first {α : Type} {p : α → Bool} {x : α} {post : List α} :
    ∀ pre : List α, (∀ y ∈ pre, p y = false) → p x = true →
      (pre ++ x :: post).find? p = some x := by
  intro pre
  induction pre with
  | nil => intro _ hx; simp [List.find?_cons, hx]
  | cons a rest ih =>
    intro hpre hx
    have ha : p a = false := hpre a (List.mem_cons_self a rest)
    simp only [List.cons_append, List.find?_cons, ha]
    exact ih (fun y hy => hpre y (List.mem_cons_of_mem a hy)) hx

theorem capturingFileStep_ok {mode : ModeM} {crlfB : List Nat}
    {cd : ContentDispositionM} {ct : Option MimeM} {src : Source} {fd : FormDataM}
    {src' : Source} {fd' : FormDataM}
    (h : capturingFileStep mode crlfB cd ct src fd = .ok (src', fd')) :
    ∃ key uf, fd' = { fd with files := fd.files ++ [(key, uf)] } ∧
      src' = (stream_until_token crlfB src).src ∧
      crlfB.length ≤ (stream_until_token crlfB src).read ∧
      uf.size = (stream_until_token crlfB src).read - crlfB.length ∧
      uf.content = (stream_until_token crlfB src).out ∧
      (∀ nm, mode = .mixed nm → key = nm) := by
  rw [capturingFileStep.eq_def] at h
  cases hfn : get_content_disposition_filename cd with
  | error e => rw [hfn] at h; simp at h
  | ok fn =>
    rw [hfn] at h
    dsimp only at h
    by_cases hlt : (stream_until_token crlfB src).read < crlfB.length
    · rw [if_pos hlt] at h; simp at h
    · rw [if_neg hlt] at h
      cases hkey : (match mode with
          | ModeM.mixed nm => some nm
          | ModeM.formDataMode => get_content_disposition_name cd) with
      | none => rw [hkey] at h; simp at h
      | some key =>
        rw [hkey] at h
        simp only [Outcome.ok.injEq, Prod.mk.injEq] at h
        refine ⟨key, ⟨fn, ct.getD mimeTextPlainUtf8,
          (stream_until_token crlfB src).read - crlfB.length,
          (stream_until_token crlfB src).out⟩,
          h.2.symm, h.1.symm, by omega, rfl, rfl, ?_⟩
        intro nm hm
        subst hm
        simpa using hkey.symm

theorem classifySection_mixed_shape {nm : String} {cd : ContentDispositionM}
    {ct : Option MimeM} {fn : Option String} {st' : StateM}
    (h : classifySection (.mixed nm) cd ct fn = .ok st') :
    st' = .capturingFile cd ct := by
  rw [classifySection] at h
  split_ifs at h
  exact (Except.ok.inj h).symm

/-- In `mixed` mode the machine only appends files, and every appended
file is keyed by the single inherited name. -/
theorem runLoop_mixed_files {nm : String} :
    ∀ fuel (b : List Nat) (src : Source) (fd : FormDataM) (st : StateM)
      (fd' : FormDataM) (src' : Source),
      (∀ cd2 ct2, st ≠ StateM.capturingMixed cd2 ct2) →
      runLoop fuel b (.mixed nm) src fd st = .ok (fd', src') →
      fd'.fields = fd.fields ∧
        ∃ new, fd'.files = fd.files ++ new ∧ ∀ p ∈ new, p.1 = nm := by
  intro fuel
  induction fuel with
  | zero => intro b src fd st fd' src' _ h; simp [runLoop] at h
  | succ f ih =>
    intro b src fd st fd' src' hst h
    cases st with
    | discarding =>
      rw [runLoop] at h
      cases hsd : stepDiscarding b src with
      | error e => rw [hsd] at h; simp at h
      | ok src1 =>
        rw [hsd] at h
        exact ih b src1 fd .readingHeaders fd' src' (by intro _ _ hh; simp at hh) h
    | readingHeaders =>
      rw [runLoop] at h
      by_cases hp : 2 ≤ (fillBuf src).length ∧ (fillBuf src).take 2 = [45, 45]
      · rw [if_pos hp] at h
        simp only [Outcome.ok.injEq, Prod.mk.injEq] at h
        refine ⟨by rw [← h.1], [], by rw [← h.1]; simp, by simp⟩
      · rw [if_neg hp] at h
        cases hrs : readHeadersScan src with
        | error e => rw [hrs] at h; simp at h
        | ok pr =>
          obtain ⟨raw, src1⟩ := pr
          rw [hrs] at h
          dsimp only at h
          cases hph : parseSectionHeaders raw with
          | error e => rw [hph] at h; simp at h
          | ok pcd =>
            obtain ⟨cd, ct⟩ := pcd
            rw [hph] at h
            dsimp only at h
            cases hgf : get_content_disposition_filename cd with
            | error e => rw [hgf] at h; simp at h
            | ok fn =>
              rw [hgf] at h
              dsimp only at h
              cases hcl : classifySection (.mixed nm) cd ct fn with
              | error e => rw [hcl] at h; simp at h
              | ok st1 =>
                rw [hcl] at h
                dsimp only at h
                have hshape := classifySection_mixed_shape hcl
                subst hshape
                exact ih b src1 fd _ fd' src' (by intro _ _ hh; simp at hh) h
    | capturingMixed cd ct => exact absurd rfl (hst cd ct)
    | capturingValue cd =>
      rw [runLoop] at h
      simp at h
    | capturingFile cd ct =>
      rw [runLoop] at h
      cases hcf : capturingFileStep (.mixed nm) (crlf_boundary b) cd ct src fd with
      | err e => rw [hcf] at h; simp at h
      | crashed => rw [hcf] at h; simp at h
      | fuelOut => rw [hcf] at h; simp at h
      | ok pr =>
        obtain ⟨src1, fd1⟩ := pr
        rw [hcf] at h
        obtain ⟨key, uf, hfd1, -, -, -, -, hkey⟩ := capturingFileStep_ok hcf
        have hk : key = nm := hkey nm rfl
        obtain ⟨hfields, new, hfiles, hnew⟩ :=
          ih b src1 fd1 .readingHeaders fd' src' (by intro _ _ hh; simp at hh) h
        subst hfd1
        refine ⟨hfields, (key, uf) :: new, ?_, ?_⟩
        · rw [hfiles]
          simp
        · intro p hp
          rcases List.mem_cons.mp hp with hp | hp
          · rw [hp, hk]
          · exact hnew p hp

/-! ## Fidelity check: the crate's own scanner unit tests -/

/-- The embedding reproduces the unit tests of `src/buf.rs` (plain scan,
straddle with 8-byte refills, token larger than a refill, double
straddle, repeated-prefix token). -/
theorem stream_until_token_matches_crate_tests :
    (stream_until_token (strBytes "78") [strBytes "123456"]).out = strBytes "123456" ∧
    (stream_until_token (strBytes "78") [strBytes "123456"]).read = 6 ∧
    (stream_until_token (strBytes "34") [strBytes "12345678"]).out = strBytes "12" ∧
    (stream_until_token (strBytes "34") [strBytes "12345678"]).read = 4 ∧
    (stream_until_token (strBytes "TOKEN") [strBytes "12345TOK", strBytes "EN345678"]).out
      = strBytes "12345" ∧
    (stream_until_token (strBytes "TOKEN") [strBytes "12345TOK", strBytes "EN345678"]).read
      = 10 ∧
    (stream_until_token (strBytes "IAMALARGETOKEN")
      [strBytes "12345IAM", strBytes "ALARGETO", strBytes "KEN4567"]).out = strBytes "12345" ∧
    (stream_until_token (strBytes "IAMALARGETOKEN")
      [strBytes "12345IAM", strBytes "ALARGETO", strBytes "KEN4567"]).read = 19 ∧
    (stream_until_token (strBytes "barbarian")
      [strBytes "12barbar", strBytes "barian78", strBytes "12"]).out = strBytes "12bar" ∧
    (stream_until_token (strBytes "barbarian")
      [strBytes "12barbar", strBytes "barian78", strBytes "12"]).read = 14 := by
  decide

/-! ## The claims -/

/-- C1: the claim states that for every input stream, non-empty delimiter
and sink, `stream_until_token` writes exactly the bytes preceding the
first delimiter occurrence and, when the delimiter does not occur, still
returns `Ok` with every byte of the stream written to the sink.  The code
violates the last part: scanning the single-chunk stream `1237` for `78`
returns `Ok(4)` but writes only `123` — the trailing `7`, withheld as a
speculative delimiter prefix, is never flushed at end of input
(`src/buf.rs` lines 56-58 break out with candidates pending). -/
theorem c1_eof_withholds_bytes :
    (stream_until_token (strBytes "78") [strBytes "1237"]).read = 4 ∧
    (stream_until_token (strBytes "78") [strBytes "1237"]).found = false ∧
    (stream_until_token (strBytes "78") [strBytes "1237"]).out = strBytes "123" ∧
    (stream_until_token (strBytes "78") [strBytes "1237"]).out ≠
      flattenSrc [strBytes "1237"] := by
  decide

/-- C2: the claim states chunk-size invariance of `(sink, consumed)`.
The code violates it: scanning `aabaabaabxxxy` for `aabaabxxxy` as one
chunk writes `aab` (the delimiter occurs at offset 3), but scanning the
same bytes chunked as `aabaa`/`baab`/`xxxy` writes nothing — when the
5-byte candidate dies while the 2-byte candidate extends, the difference
bytes are dropped (`src/buf.rs` lines 70-92 flush only on `!partmatch`).
The consumed count (13) agrees; the sink contents differ. -/
theorem c2_chunking_changes_sink :
    flattenSrc dropChunks = flattenSrc [dropSeq] ∧
    (stream_until_token dropToken [dropSeq]).out = strBytes "aab" ∧
    (stream_until_token dropToken [dropSeq]).read = 13 ∧
    (stream_until_token dropToken [dropSeq]).found = true ∧
    (stream_until_token dropToken dropChunks).out = [] ∧
    (stream_until_token dropToken dropChunks).read = 13 ∧
    (stream_until_token dropToken dropChunks).found = true ∧
    (stream_until_token dropToken dropChunks).out ≠
      (stream_until_token dropToken [dropSeq]).out := by
  decide

/-- C3: the claim states that at every point during a scan at most
`delimiter.len() - 1` consumed bytes are withheld unwritten, and that the
sink mirrors the consumed input minus the delimiter.  The code violates
the bound: running the scan on `holdChunks` for the delimiter
`aabaabxxxy` (length 10), after three refills (`sutLoop` with fuel 3 is
exactly the state of the full scan after its first three rounds) 13 bytes
are consumed and none written — 13 > 9 withheld bytes.  The full scan
ends unmatched with 6 of the 17 consumed bytes missing from the sink. -/
theorem c3_withheld_exceeds_bound :
    (sutLoop dropToken 3 holdChunks []).read = 13 ∧
    (sutLoop dropToken 3 holdChunks []).out = [] ∧
    (sutLoop dropToken 3 holdChunks []).found = false ∧
    dropToken.length - 1 = 9 ∧
    ¬ ((sutLoop dropToken 3 holdChunks []).read -
        (sutLoop dropToken 3 holdChunks []).out.length ≤ dropToken.length - 1) ∧
    (stream_until_token dropToken holdChunks).read = 17 ∧
    (stream_until_token dropToken holdChunks).out.length = 11 := by
  decide

/-- C4: section classification (`src/lib.rs` lines 142-158): in form-data
mode with disposition-type `form-data`, a `multipart/mixed` content type
gives `CapturingMixed`; otherwise a present content type or filename
gives `CapturingFile`; otherwise `CapturingValue`.  In mixed mode,
disposition-type `file` or `attachment` gives `CapturingFile`.  Every
other mode/disposition combination is the fatal `InvalidDisposition`. -/
theorem c4_classification :
    ∀ (cd : ContentDispositionM) (ct : Option MimeM) (fn : Option String) (nm : String),
      (∀ ctv, cd.disposition = .extD "form-data" → is_multipart_mixed (some ctv) = true →
        classifySection .formDataMode cd (some ctv) fn = .ok (.capturingMixed cd ctv)) ∧
      (cd.disposition = .extD "form-data" → is_multipart_mixed ct = false →
        (ct.isSome ∨ fn.isSome) →
        classifySection .formDataMode cd ct fn = .ok (.capturingFile cd ct)) ∧
      (cd.disposition = .extD "form-data" → ct = none → fn = none →
        classifySection .formDataMode cd ct fn = .ok (.capturingValue cd)) ∧
      ((cd.disposition = .extD "file" ∨ cd.disposition = .attachment) →
        classifySection (.mixed nm) cd ct fn = .ok (.capturingFile cd ct)) ∧
      (cd.disposition ≠ .extD "form-data" →
        classifySection .formDataMode cd ct fn = .error .invalidDisposition) ∧
      (cd.disposition ≠ .extD "file" → cd.disposition ≠ .attachment →
        classifySection (.mixed nm) cd ct fn = .error .invalidDisposition) := by
  intro cd ct fn nm
  refine ⟨?_, ?_, ?_, ?_, ?_, ?_⟩
  · intro ctv hd hm
    rw [classifySection.eq_def]
    dsimp only
    rw [if_pos hd]
    rw [if_pos hm]
  · intro hd hm hsome
    cases ct with
    | some ctv =>
      rw [classifySection.eq_def]
      dsimp only
      rw [if_pos hd]
      rw [if_neg (by simp [hm])]
    | none =>
      cases fn with
      | some f =>
        rw [classifySection.eq_def]
        dsimp only
        rw [if_pos hd]
        simp
      | none => simp at hsome
  · intro hd hct hfn
    subst hct
    subst hfn
    rw [classifySection.eq_def]
    dsimp only
    rw [if_pos hd]
    simp
  · intro hor
    rw [classifySection.eq_def]
    dsimp only
    rw [if_pos hor]
  · intro hd
    rw [classifySection.eq_def]
    dsimp only
    rw [if_neg hd]
  · intro h1 h2
    rw [classifySection.eq_def]
    dsimp only
    rw [if_neg ?_]
    intro hc
    rcases hc with hc | hc
    · exact h1 hc
    · exact h2 hc

/-- Witness for C4 at concrete inputs: one instance per classification
outcome. -/
theorem c4_classification_witness :
    classifySection .formDataMode ⟨.extD "form-data", []⟩
        (some ⟨.multipart, .extSub "mixed", []⟩) none =
      .ok (.capturingMixed ⟨.extD "form-data", []⟩ ⟨.multipart, .extSub "mixed", []⟩) ∧
    classifySection (.mixed "k") ⟨.extD "file", []⟩ none none =
      .ok (.capturingFile ⟨.extD "file", []⟩ none) ∧
    classifySection .formDataMode ⟨.attachment, []⟩ none none =
      .error .invalidDisposition :=
  ⟨(c4_classification ⟨.extD "form-data", []⟩ none none "k").1
      ⟨.multipart, .extSub "mixed", []⟩ rfl (by decide),
   (c4_classification ⟨.extD "file", []⟩ none none "k").2.2.2.1 (Or.inl rfl),
   (c4_classification ⟨.attachment, []⟩ none none "k").2.2.2.2.1 (by decide)⟩

/-- C5: every file discovered inside a nested `multipart/mixed` envelope
is keyed by the single inherited outer field name (never a per-part
name), keeping its own filename, content type and size; concretely, the
nested body with two file parts under field name `files` flattens into
exactly two `(files, file)` entries. -/
theorem c5_mixed_flattening :
    (∀ fuel (b : List Nat) (nm : String) (src : Source) (fd fd' : FormDataM)
        (src' : Source),
      runLoop fuel b (.mixed nm) src fd .discarding = .ok (fd', src') →
      fd'.fields = fd.fields ∧
        ∃ new, fd'.files = fd.files ++ new ∧ ∀ p ∈ new, p.1 = nm) ∧
    parse_multipart [strBytes nestedBody] "--A" =
      .ok ⟨[], [("files", ⟨some "f1.txt", mimeTextPlainUtf8, 2, strBytes "hi"⟩),
                ("files", ⟨some "f2.gif", ⟨.image, .extSub "gif", []⟩, 2,
                  strBytes "yo"⟩)]⟩ := by
  constructor
  · intro fuel b nm src fd fd' src' h
    exact runLoop_mixed_files fuel b src fd .discarding fd' src'
      (by intro _ _ hh; simp at hh) h
  · decide

/-- Witness for C5: the invariant applied to a concrete mixed-mode run
capturing one file. -/
theorem c5_mixed_flattening_witness :
    mixedWitnessFd.fields = (FormDataM.mk [] []).fields ∧
      ∃ new, mixedWitnessFd.files = (FormDataM.mk [] []).files ++ new ∧
        ∀ p ∈ new, p.1 = "k" :=
  c5_mixed_flattening.1 20 (strBytes "--B") "k" mixedWitnessSrc ⟨[], []⟩
    mixedWitnessFd [strBytes "--"] (by decide)

/-- C6 counterexample: the claim equates the recorded size with the bytes
streamed to the temp file.  On a file section truncated mid-boundary
(body `data\r\n--`, boundary `--b`), the scan consumes 8 bytes without
finding the delimiter, the code records size `8 - 5 = 3`, but 4 bytes
(`data`) were streamed to the file. -/
theorem c6_counterexample :
    capturingFileStep (.mixed "a") (strBytes "\r\n--b") ⟨.extD "file", []⟩ none
        [strBytes "data\r\n--"] ⟨[], []⟩ =
      .ok ([], ⟨[], [("a", ⟨none, mimeTextPlainUtf8, 3, strBytes "data"⟩)]⟩) ∧
    (3 : Nat) ≠ (strBytes "data").length := by
  decide

/-- C6 as amended: every captured file records
`size = consumed - crlf_boundary.len()`; and whenever the delimiter was
actually matched and no prefix of the CRLF-prefixed boundary has a proper
border (true of every `\r\n--…` boundary with a CR-free tail), the size
equals exactly the number of bytes streamed to the file. -/
theorem c6_amended :
    ∀ (mode : ModeM) (crlfB : List Nat) (cd : ContentDispositionM)
      (ct : Option MimeM) (src : Source) (fd : FormDataM) (src' : Source)
      (fd' : FormDataM),
      capturingFileStep mode crlfB cd ct src fd = .ok (src', fd') →
      ∃ key uf, fd' = { fd with files := fd.files ++ [(key, uf)] } ∧
        uf.size = (stream_until_token crlfB src).read - crlfB.length ∧
        uf.content = (stream_until_token crlfB src).out ∧
        (borderFreePrefixes crlfB → (stream_until_token crlfB src).found = true →
          uf.size = uf.content.length) := by
  intro mode crlfB cd ct src fd src' fd' h
  obtain ⟨key, uf, hfd, hsrc, hge, hsize, hcontent, hkey⟩ := capturingFileStep_ok h
  refine ⟨key, uf, hfd, hsize, hcontent, ?_⟩
  intro hbf hfound
  have hbal := stream_bf_found hbf hfound
  rw [hsize, hcontent]
  omega

/-- Witness for C6 at a concrete matched body `xy` + boundary: size 2 and
content of length 2. -/
theorem c6_amended_witness :
    ∃ key uf, fileWitnessFd =
        { FormDataM.mk [] [] with files := (FormDataM.mk [] []).files ++ [(key, uf)] } ∧
      uf.size = (stream_until_token (strBytes "\r\n--b")
          [strBytes "xy\r\n--bzz"]).read - (strBytes "\r\n--b").length ∧
      uf.content = (stream_until_token (strBytes "\r\n--b")
          [strBytes "xy\r\n--bzz"]).out ∧
      (borderFreePrefixes (strBytes "\r\n--b") →
        (stream_until_token (strBytes "\r\n--b") [strBytes "xy\r\n--bzz"]).found = true →
        uf.size = uf.content.length) :=
  c6_amended (.mixed "a") (strBytes "\r\n--b") ⟨.extD "file", []⟩ none
    [strBytes "xy\r\n--bzz"] ⟨[], []⟩ [strBytes "zz"] fileWitnessFd (by decide)

/-- C7 counterexample: the claim says every truncated input missing the
final closing boundary returns `Eof`.  The truncated body `--b\r\nX: y`
is missing its closing boundary yet returns `MissingDisposition` (its
header block parses, but carries no `Content-Disposition`). -/
theorem c7_counterexample :
    parse_multipart [strBytes truncatedHeaderBody] "--b" = .err .missingDisposition ∧
    ParseError.missingDisposition ≠ ParseError.eofErr := by
  decide

/-- C7 as amended: in the `Discarding` state, `Eof` is returned exactly
when the boundary scan consumes zero bytes, which happens exactly when
the source is already exhausted; truncated inputs whose headers stay
intact (for example a body cut inside a field value) do end in `Eof`,
but other truncations surface different fatal errors. -/
theorem c7_amended :
    (∀ (boundary : List Nat) (src : Source), boundary ≠ [] →
      (stepDiscarding boundary src = .error .eofErr ↔ fillBuf src = [])) ∧
    parse_multipart [strBytes truncatedValueBody] "--b" = .err .eofErr :=
  ⟨fun _ _ hb => stepDiscarding_eof_iff hb, by decide⟩

/-- Witness for C7: the `Discarding` step on an exhausted source returns
`Eof`. -/
theorem c7_amended_witness :
    stepDiscarding (strBytes "--b") [] = .error .eofErr :=
  (c7_amended.1 (strBytes "--b") [] (by decide)).mpr rfl

/-- C8: the top-level entry check (`get_multipart_boundary`) is a pure
function of the header map, failing with `NoRequestContentType`,
`NotMultipart`, `NotFormData` or `BoundaryNotSpecified` before any
scanning, and otherwise returning the boundary parameter prefixed with
`--`. -/
theorem c8_precondition_check :
    ∀ (h : HeadersM),
      (h.contentType = none →
        get_multipart_boundary h = .error .noRequestContentType) ∧
      (∀ m, h.contentType = some m → m.top ≠ .multipart →
        get_multipart_boundary h = .error .notMultipart) ∧
      (∀ m, h.contentType = some m → m.top = .multipart → m.sub ≠ .formData →
        get_multipart_boundary h = .error .notFormData) ∧
      (∀ m, h.contentType = some m → m.top = .multipart → m.sub = .formData →
        (∀ p ∈ m.params, ∀ s, p ≠ (.boundary, .extVal s)) →
        get_multipart_boundary h = .error .boundaryNotSpecified) ∧
      (∀ m v pre post, h.contentType = some m → m.top = .multipart →
        m.sub = .formData → m.params = pre ++ (.boundary, .extVal v) :: post →
        (∀ p ∈ pre, ∀ s, p ≠ (.boundary, .extVal s)) →
        get_multipart_boundary h = .ok ("--" ++ v)) := by
  intro h
  have hpred : ∀ (a : AttrM) (vl : ValueM), (∀ s, (a, vl) ≠ (.boundary, .extVal s)) →
      (match ((a, vl) : AttrM × ValueM) with
        | (AttrM.boundary, ValueM.extVal _) => true
        | _ => false) = false := by
    intro a vl hy
    cases a with
    | boundary =>
      cases vl with
      | extVal s => exact absurd rfl (hy s)
      | utf8 => rfl
    | charset => cases vl <;> rfl
    | extAttr s => cases vl <;> rfl
  refine ⟨?_, ?_, ?_, ?_, ?_⟩
  · intro hct
    simp [get_multipart_boundary, hct]
  · intro m hct htop
    simp [get_multipart_boundary, hct, htop]
  · intro m hct htop hsub
    rw [get_multipart_boundary]
    rw [hct]
    dsimp only
    rw [if_neg (by simp [htop]), if_pos hsub]
  · intro m hct htop hsub hnone
    rw [get_multipart_boundary]
    rw [hct]
    dsimp only
    rw [if_neg (by simp [htop]), if_neg (by simp [hsub])]
    rw [get_boundary_token]
    have : m.params.find? (fun p => match p with
        | (AttrM.boundary, ValueM.extVal _) => true
        | _ => false) = none := by
      refine List.find?_eq_none.mpr (fun x hx => ?_)
      obtain ⟨a, vl⟩ := x
      show ¬ ((match ((a, vl) : AttrM × ValueM) with
        | (AttrM.boundary, ValueM.extVal _) => true
        | _ => false) = true)
      rw [hpred a vl (hnone (a, vl) hx)]
      simp
    rw [this]
  · intro m v pre post hct htop hsub hparams hpre
    rw [get_multipart_boundary]
    rw [hct]
    dsimp only
    rw [if_neg (by simp [htop]), if_neg (by simp [hsub])]
    rw [get_boundary_token]
    have : m.params.find? (fun p => match p with
        | (AttrM.boundary, ValueM.extVal _) => true
        | _ => false) = some (.boundary, .extVal v) := by
      rw [hparams]
      refine find?_first pre (fun y hy => ?_) rfl
      obtain ⟨a, vl⟩ := y
      show (match ((a, vl) : AttrM × ValueM) with
        | (AttrM.boundary, ValueM.extVal _) => true
        | _ => false) = false
      exact hpred a vl (hpre (a, vl) hy)
    rw [this]

/-- Witness for C8: a concrete header map with a boundary parameter. -/
theorem c8_precondition_check_witness :
    get_multipart_boundary
        ⟨some ⟨.multipart, .formData, [(.boundary, .extVal "abc")]⟩, none⟩ =
      .ok ("--" ++ "abc") :=
  (c8_precondition_check
      ⟨some ⟨.multipart, .formData, [(.boundary, .extVal "abc")]⟩, none⟩).2.2.2.2
    ⟨.multipart, .formData, [(.boundary, .extVal "abc")]⟩ "abc" [] []
    rfl rfl rfl rfl (by intro p hp; cases hp)

/-- C9: the size computation `read - crlf_boundary.len()` is an unguarded
unsigned subtraction.  It cannot underflow when the CRLF-prefixed
boundary occurs in the remaining stream (then at least that many bytes
are consumed, whether or not the scanner reports a match), but a file
section truncated after two bytes makes `parse_multipart` underflow
(a Rust panic, `Outcome.crashed`) instead of returning a typed error. -/
theorem c9_size_underflow :
    (∀ (mode : ModeM) (crlfB : List Nat) (cd : ContentDispositionM)
        (ct : Option MimeM) (src : Source) (fd : FormDataM),
      (∀ c ∈ src, c ≠ []) → occursIn crlfB (flattenSrc src) →
      capturingFileStep mode crlfB cd ct src fd ≠ .crashed) ∧
    parse_multipart [strBytes truncatedFileBody] "--b" = .crashed := by
  constructor
  · intro mode crlfB cd ct src fd hne hocc h
    rw [capturingFileStep.eq_def] at h
    cases hfn : get_content_disposition_filename cd with
    | error e => rw [hfn] at h; simp at h
    | ok fn =>
      rw [hfn] at h
      dsimp only at h
      have hge : crlfB.length ≤ (stream_until_token crlfB src).read := by
        by_cases hcb : crlfB = []
        · subst hcb; simp
        · cases hfound : (stream_until_token crlfB src).found with
          | true => exact stream_found_read hcb hfound
          | false =>
            rw [stream_notfound_read hne hfound, totalLen_eq_flatten]
            obtain ⟨pre, post, hsplit⟩ := hocc
            rw [hsplit, List.length_append, List.length_append]
            omega
      rw [if_neg (by omega)] at h
      cases hkey : (match mode with
          | ModeM.mixed nm => some nm
          | ModeM.formDataMode => get_content_disposition_name cd) with
      | none => rw [hkey] at h; simp at h
      | some key => rw [hkey] at h; simp at h
  · decide

/-- Witness for C9: with the delimiter present in the remaining stream,
the capture step does not panic. -/
theorem c9_size_underflow_witness :
    capturingFileStep (.mixed "a") (strBytes "\r\n--b") ⟨.extD "file", []⟩ none
        [strBytes "xy\r\n--bzz"] ⟨[], []⟩ ≠ .crashed :=
  c9_size_underflow.1 (.mixed "a") (strBytes "\r\n--b") ⟨.extD "file", []⟩ none
    [strBytes "xy\r\n--bzz"] ⟨[], []⟩ (by decide)
    ⟨strBytes "xy", strBytes "zz", by decide⟩

/-- C10: the terminal-success test in `ReadingHeaders` peeks the buffered
source once and requires both `-` bytes in that single refill.  The same
byte sequence parses successfully when delivered as one chunk but fails
with `Eof` when the closing `--` arrives as two separate one-byte
refills: end-to-end parsing is not invariant under the source's
chunking. -/
theorem c10_closing_marker_chunking :
    flattenSrc [strBytes closingBody, strBytes "-", strBytes "-"] =
      flattenSrc [strBytes (closingBody ++ "--")] ∧
    parse_multipart [strBytes (closingBody ++ "--")] "--b" =
      .ok ⟨[("a", "v")], []⟩ ∧
    parse_multipart [strBytes closingBody, strBytes "-", strBytes "-"] "--b" =
      .err .eofErr := by
  decide

end Formdata
